import Mathlib

/-!
# Internal key format of the memtable (`memtable/format.go`)

A shallow embedding of the record encoder `newInternalKey`, the probe builder
`LookupKey`, the four accessors and the two comparators, followed by the
properties of the format that are proved about them.

Modelling conventions

* a Go `[]byte` is a `List Byte`, a `byte` is a `Fin 256`;
* Go `int` is 64 bits wide; lengths of slices are natural numbers (a slice
  never has a negative length, and no length in this file reaches `2^63`);
* `uint32` and `uint64` values are natural numbers reduced explicitly
  modulo `2^32` and `2^64`; `int64` and `ValueType` values are integers;
* a run-time panic (index or slice bound out of range) is `none`.
-/

namespace Memtable

/-! ## Machine integers -/

/-- A Go `byte`. -/
abbrev Byte := Fin 256

/-- Go conversion `byte(v)` of an unsigned integer: the low eight bits. -/
def toByte (v : Nat) : Byte := ⟨v % 256, Nat.mod_lt _ (by decide)⟩

/-- Go conversion `uint32(n)` of a non-negative `int`. -/
def toUint32 (n : Nat) : Nat := n % 2 ^ 32

/-- Go conversion `uint64(z)` of a signed integer (two's complement). -/
def toUint64 (z : Int) : Nat := (z % 2 ^ 64).toNat

/-- Go conversion `int64(n)` (and `int(n)`) of an unsigned 64-bit integer. -/
def toInt64 (n : Nat) : Int :=
  if n % 2 ^ 64 < 2 ^ 63 then ((n % 2 ^ 64 : Nat) : Int) else ((n % 2 ^ 64 : Nat) : Int) - 2 ^ 64

/-- Addition of two `uint32` values, wrapping around. -/
def add32 (a b : Nat) : Nat := (a + b) % 2 ^ 32

/-- Subtraction of two `uint32` values, wrapping around. -/
def sub32 (a b : Nat) : Nat := (2 ^ 32 + a - b % 2 ^ 32) % 2 ^ 32

/-! ## Slices -/

/-- Go `s[lo:]`: the slice bound is checked against the length. -/
def sliceFrom (s : List Byte) (lo : Nat) : Option (List Byte) :=
  if lo ≤ s.length then some (s.drop lo) else none

/-- Go `s[lo:hi]` on a slice whose capacity equals its length (every buffer
here comes from `make([]byte, n)`). -/
def slice (s : List Byte) (lo hi : Nat) : Option (List Byte) :=
  if lo ≤ hi ∧ hi ≤ s.length then some ((s.take hi).drop lo) else none

/-- Run a writer on the view `buf[off:]`. The view shares its storage with
`buf`, so what the writer stores lands in `buf` from index `off` on. -/
def withSliceFrom (buf : List Byte) (off : Nat)
    (w : List Byte → Option (List Byte)) : Option (List Byte) :=
  if off ≤ buf.length then (w (buf.drop off)).map (fun t => buf.take off ++ t) else none

/-- Go builtin `copy(dst, src)`: copies `min(len(dst), len(src))` bytes and
never fails. The result is the new content of `dst`. -/
def copy : List Byte → List Byte → List Byte
  | _ :: ds, s :: ss => s :: copy ds ss
  | ds, _ => ds

/-! ## `encoding/binary`, little endian -/

/-- `binary.LittleEndian.PutUint32(b, v)`. -/
def PutUint32 (b : List Byte) (v : Nat) : Option (List Byte) :=
  if 3 < b.length then
    some ((((b.set 0 (toByte v)).set 1 (toByte (v >>> 8))).set 2 (toByte (v >>> 16))).set 3
      (toByte (v >>> 24)))
  else none

/-- `binary.LittleEndian.PutUint64(b, v)`. -/
def PutUint64 (b : List Byte) (v : Nat) : Option (List Byte) :=
  if 7 < b.length then
    some ((((((((b.set 0 (toByte v)).set 1 (toByte (v >>> 8))).set 2 (toByte (v >>> 16))).set 3
      (toByte (v >>> 24))).set 4 (toByte (v >>> 32))).set 5 (toByte (v >>> 40))).set 6
      (toByte (v >>> 48))).set 7 (toByte (v >>> 56)))
  else none

/-- `binary.LittleEndian.Uint32(b)`. -/
def Uint32 (b : List Byte) : Option Nat :=
  match b with
  | b0 :: b1 :: b2 :: b3 :: _ =>
    some (b0.val ||| b1.val <<< 8 ||| b2.val <<< 16 ||| b3.val <<< 24)
  | _ => none

/-- `binary.LittleEndian.Uint64(b)`. -/
def Uint64 (b : List Byte) : Option Nat :=
  match b with
  | b0 :: b1 :: b2 :: b3 :: b4 :: b5 :: b6 :: b7 :: _ =>
    some (b0.val ||| b1.val <<< 8 ||| b2.val <<< 16 ||| b3.val <<< 24 ||| b4.val <<< 32 |||
      b5.val <<< 40 ||| b6.val <<< 48 ||| b7.val <<< 56)
  | _ => none

/-- `bytes.Compare(a, b)`: `-1`, `0` or `+1`. -/
def bytesCompare : List Byte → List Byte → Int
  | [], [] => 0
  | [], _ :: _ => -1
  | _ :: _, [] => 1
  | a :: as, b :: bs => if a < b then -1 else if b < a then 1 else bytesCompare as bs

/-! ## `format.go` -/

/-- `type ValueType int`. -/
abbrev ValueType := Int

/-- `TypeDeletion ValueType = 0`. -/
def TypeDeletion : ValueType := 0

/-- `TypeValue ValueType = 1`. -/
def TypeValue : ValueType := 1

/-- `type InternalKey struct { rep []byte }`. -/
structure InternalKey where
  rep : List Byte
  deriving DecidableEq, Repr

/-- The 64-bit word `(uint64(seq)<<8)|uint64(valueType)` stored by `newInternalKey`. -/
def packTag (seq : Int) (valueType : ValueType) : Nat :=
  (toUint64 seq <<< 8) % 2 ^ 64 ||| toUint64 valueType

/-- `func newInternalKey(seq int64, valueType ValueType, key, value []byte) *InternalKey`. -/
def newInternalKey (seq : Int) (valueType : ValueType) (key value : List Byte) :
    Option InternalKey := do
  let internalKeySize := key.length + 8
  let valueSize := value.length
  let encodedLen := 4 + internalKeySize + 4 + valueSize
  let buf := List.replicate encodedLen (0 : Byte)
  let offset := 0
  let buf ← withSliceFrom buf offset (fun b => PutUint32 b (toUint32 internalKeySize))
  let offset := offset + 4
  let buf ← withSliceFrom buf offset (fun b => some (copy b key))
  let offset := offset + key.length
  let buf ← withSliceFrom buf offset (fun b => PutUint64 b (packTag seq valueType))
  let offset := offset + 8
  let buf ← withSliceFrom buf offset (fun b => PutUint32 b (toUint32 valueSize))
  let offset := offset + 4
  let buf ← withSliceFrom buf offset (fun b => some (copy b value))
  pure { rep := buf }

/-- `func (internalKey *InternalKey) userKey() []byte`. -/
def InternalKey.userKey (internalKey : InternalKey) : Option (List Byte) := do
  let internalKeySize ← Uint32 internalKey.rep
  slice internalKey.rep 4 (sub32 internalKeySize 4)

/-- `func (internalKey *InternalKey) userValue() []byte`. -/
def InternalKey.userValue (internalKey : InternalKey) : Option (List Byte) := do
  let valueOffset := add32 (← Uint32 internalKey.rep) 8
  sliceFrom internalKey.rep valueOffset

/-- `func (internalKey *InternalKey) valueType() ValueType`. -/
def InternalKey.valueType (internalKey : InternalKey) : Option ValueType := do
  let tagOffset := sub32 (← Uint32 internalKey.rep) 4
  let tag ← Uint64 (← sliceFrom internalKey.rep tagOffset)
  pure (toInt64 (tag &&& 0xff))

/-- `func (internalKey *InternalKey) seq() int64`. -/
def InternalKey.seq (internalKey : InternalKey) : Option Int := do
  let tagOffset := sub32 (← Uint32 internalKey.rep) 4
  let tag ← Uint64 (← sliceFrom internalKey.rep tagOffset)
  pure (toInt64 (tag >>> 8))

/-- `func LookupKey(key []byte) *InternalKey`. -/
def LookupKey (key : List Byte) : Option InternalKey := do
  let buf := List.replicate (4 + key.length + 8) (0 : Byte)
  let offset := 0
  let buf ← withSliceFrom buf offset (fun b => PutUint32 b (toUint32 (key.length + 8)))
  let offset := offset + 4
  let buf ← withSliceFrom buf offset (fun b => some (copy b key))
  let offset := offset + key.length
  let buf ← withSliceFrom buf offset (fun b => PutUint64 b 0xffffffffffffffff)
  pure { rep := buf }

/-- `func UserKeyComparator(a, b interface{}) int`, at the dynamic type `[]byte`. -/
def UserKeyComparator (a b : List Byte) : Int :=
  bytesCompare a b

/-- `func InternalKeyComparator(a, b interface{}) int`, at the dynamic type
`*InternalKey`. -/
def InternalKeyComparator (a b : InternalKey) : Option Int := do
  let aUser ← a.userKey
  let bUser ← b.userKey
  let r := UserKeyComparator aUser bUser
  if r = 0 then
    let anum ← a.seq
    let bnum ← b.seq
    if anum > bnum then
      pure (-1)
    else if anum < bnum then
      pure 1
    else
      pure r
  else
    pure r

/-! ## Reference encodings used to state the layout -/

/-- The `w`-byte little-endian encoding of `n`, least significant byte first. -/
def leBytes : Nat → Nat → List Byte
  | 0, _ => []
  | w + 1, n => toByte n :: leBytes w (n / 256)

/-- The 4-byte little-endian encoding. -/
def LE32 (n : Nat) : List Byte := leBytes 4 n

/-- The 8-byte little-endian encoding. -/
def LE64 (n : Nat) : List Byte := leBytes 8 n

/-- The value of a little-endian byte string. -/
def leVal : List Byte → Nat
  | [] => 0
  | b :: bs => b.val + 256 * leVal bs

/-- The buffer of a record, field after field, as laid out by the format
comment of `newInternalKey`. -/
def recordLayout (seq : Int) (valueType : ValueType) (key value : List Byte) : List Byte :=
  LE32 (toUint32 (key.length + 8)) ++ (key ++ (LE64 (packTag seq valueType) ++
    (LE32 (toUint32 value.length) ++ value)))

/-- The buffer of a probe, field after field. -/
def probeLayout (key : List Byte) : List Byte :=
  LE32 (toUint32 (key.length + 8)) ++ (key ++ LE64 0xffffffffffffffff)

/-- The records the two producers build under the size precondition of the
format: `newInternalKey` with a 56-bit sequence, a tag that is `TypeDeletion`
or `TypeValue`, and key and value sizes that fit their 32-bit fields; or
`LookupKey` with a key whose size fits its field. -/
inductive WellFormed : InternalKey → Prop
  | entry (seq : Int) (valueType : ValueType) (key value : List Byte) (r : InternalKey) :
      0 ≤ seq → seq < 2 ^ 56 → (valueType = TypeDeletion ∨ valueType = TypeValue) →
      key.length + 8 < 2 ^ 32 → value.length < 2 ^ 32 →
      newInternalKey seq valueType key value = some r → WellFormed r
  | probe (key : List Byte) (r : InternalKey) :
      key.length + 8 < 2 ^ 32 → LookupKey key = some r → WellFormed r

/-- The result of `InternalKeyComparator` as a function of the decoded user
keys and sequences of its two arguments (the body of the function after the
accessor calls). -/
def compareDecoded (aUser bUser : List Byte) (anum bnum : Int) : Int :=
  if UserKeyComparator aUser bUser = 0 then
    (if anum > bnum then -1 else if anum < bnum then 1 else 0)
  else UserKeyComparator aUser bUser

/-! ## Byte-level lemmas -/

theorem leBytes_length (w n : Nat) : (leBytes w n).length = w := by
  induction w generalizing n with
  | zero => rfl
  | succ w ih => simp [leBytes, ih]

theorem LE32_length (n : Nat) : (LE32 n).length = 4 := leBytes_length 4 n

theorem LE64_length (n : Nat) : (LE64 n).length = 8 := leBytes_length 8 n

theorem leVal_leBytes (w n : Nat) : leVal (leBytes w n) = n % 256 ^ w := by
  induction w generalizing n with
  | zero => simp [leBytes, leVal, Nat.mod_one]
  | succ w ih =>
    rw [pow_succ', Nat.mod_mul]
    simp only [leBytes, leVal, toByte, ih]

theorem lor_shiftLeft_of_lt (lo hi i : Nat) (h : lo < 2 ^ i) :
    lo ||| hi <<< i = lo + hi * 2 ^ i := by
  rw [Nat.shiftLeft_eq, Nat.lor_comm, Nat.mul_comm, ← Nat.mul_add_lt_is_or h, Nat.add_comm]

theorem toByte_shiftRight (v i : Nat) : toByte (v >>> i) = toByte (v / 2 ^ i) := by
  rw [Nat.shiftRight_eq_div_pow]

theorem withSliceFrom_append (pre tail : List Byte) (off : Nat)
    (w : List Byte → Option (List Byte)) (h : off = pre.length) :
    withSliceFrom (pre ++ tail) off w = (w tail).map (fun t => pre ++ t) := by
  subst h
  simp [withSliceFrom]

theorem copy_eq (dst src : List Byte) (h : src.length ≤ dst.length) :
    copy dst src = src ++ dst.drop src.length := by
  induction src generalizing dst with
  | nil => cases dst <;> simp [copy]
  | cons s ss ih =>
    cases dst with
    | nil => simp at h
    | cons d ds =>
      simp only [List.length_cons, Nat.add_le_add_iff_right] at h
      simp [copy, ih ds h]

theorem PutUint32_eq (b : List Byte) (v : Nat) (h : 4 ≤ b.length) :
    PutUint32 b v = some (LE32 v ++ b.drop 4) := by
  match b, h with
  | _ :: _ :: _ :: _ :: rest, _ =>
    simp [PutUint32, LE32, leBytes, toByte_shiftRight, Nat.div_div_eq_div_mul]

theorem PutUint64_eq (b : List Byte) (v : Nat) (h : 8 ≤ b.length) :
    PutUint64 b v = some (LE64 v ++ b.drop 8) := by
  match b, h with
  | _ :: _ :: _ :: _ :: _ :: _ :: _ :: _ :: rest, _ =>
    simp [PutUint64, LE64, leBytes, toByte_shiftRight, Nat.div_div_eq_div_mul]

theorem Uint32_eq_leVal (b0 b1 b2 b3 : Byte) (rest : List Byte) :
    Uint32 (b0 :: b1 :: b2 :: b3 :: rest) = some (leVal [b0, b1, b2, b3]) := by
  have h0 := b0.isLt
  have h1 := b1.isLt
  have h2 := b2.isLt
  have h3 := b3.isLt
  simp only [Uint32, leVal]
  rw [lor_shiftLeft_of_lt b0.val b1.val 8 (by omega),
    lor_shiftLeft_of_lt _ b2.val 16 (by omega), lor_shiftLeft_of_lt _ b3.val 24 (by omega)]
  congr 1
  omega

theorem Uint64_eq_leVal (b0 b1 b2 b3 b4 b5 b6 b7 : Byte) (rest : List Byte) :
    Uint64 (b0 :: b1 :: b2 :: b3 :: b4 :: b5 :: b6 :: b7 :: rest) =
      some (leVal [b0, b1, b2, b3, b4, b5, b6, b7]) := by
  have h0 := b0.isLt
  have h1 := b1.isLt
  have h2 := b2.isLt
  have h3 := b3.isLt
  have h4 := b4.isLt
  have h5 := b5.isLt
  have h6 := b6.isLt
  have h7 := b7.isLt
  simp only [Uint64, leVal]
  rw [lor_shiftLeft_of_lt b0.val b1.val 8 (by omega),
    lor_shiftLeft_of_lt _ b2.val 16 (by omega), lor_shiftLeft_of_lt _ b3.val 24 (by omega),
    lor_shiftLeft_of_lt _ b4.val 32 (by omega), lor_shiftLeft_of_lt _ b5.val 40 (by omega),
    lor_shiftLeft_of_lt _ b6.val 48 (by omega), lor_shiftLeft_of_lt _ b7.val 56 (by omega)]
  congr 1
  omega

theorem Uint32_LE32 (v : Nat) (rest : List Byte) :
    Uint32 (LE32 v ++ rest) = some (v % 2 ^ 32) := by
  have h := leVal_leBytes 4 v
  simp only [leBytes] at h
  simp only [LE32, leBytes, List.cons_append, List.nil_append, Uint32_eq_leVal, h]
  norm_num

theorem Uint64_LE64 (v : Nat) (rest : List Byte) :
    Uint64 (LE64 v ++ rest) = some (v % 2 ^ 64) := by
  have h := leVal_leBytes 8 v
  simp only [leBytes] at h
  simp only [LE64, leBytes, List.cons_append, List.nil_append, Uint64_eq_leVal, h]
  norm_num

/-! ## The buffers the two producers build -/

theorem put32_step (pre : List Byte) (off m n v : Nat) (ho : off = pre.length)
    (hm : m = 4 + n) :
    withSliceFrom (pre ++ List.replicate m 0) off (fun b => PutUint32 b v) =
      some ((pre ++ LE32 v) ++ List.replicate n 0) := by
  subst hm
  rw [withSliceFrom_append _ _ _ _ ho, PutUint32_eq _ _ (by simp)]
  simp

theorem put64_step (pre : List Byte) (off m n v : Nat) (ho : off = pre.length)
    (hm : m = 8 + n) :
    withSliceFrom (pre ++ List.replicate m 0) off (fun b => PutUint64 b v) =
      some ((pre ++ LE64 v) ++ List.replicate n 0) := by
  subst hm
  rw [withSliceFrom_append _ _ _ _ ho, PutUint64_eq _ _ (by simp)]
  simp

theorem copy_step (pre src : List Byte) (off m n : Nat) (ho : off = pre.length)
    (hm : m = src.length + n) :
    withSliceFrom (pre ++ List.replicate m 0) off (fun b => some (copy b src)) =
      some ((pre ++ src) ++ List.replicate n 0) := by
  subst hm
  rw [withSliceFrom_append _ _ _ _ ho, copy_eq _ _ (by simp)]
  simp

/-- The encoder never fails, and its buffer is the layout of the format
comment, whatever the arguments. -/
theorem newInternalKey_eq (seq : Int) (valueType : ValueType) (key value : List Byte) :
    newInternalKey seq valueType key value =
      some { rep := recordLayout seq valueType key value } := by
  have s1 := put32_step [] 0 (4 + (key.length + 8) + 4 + value.length)
    (key.length + 8 + 4 + value.length) (toUint32 (key.length + 8)) rfl (by omega)
  have s2 := copy_step ([] ++ LE32 (toUint32 (key.length + 8))) key (0 + 4)
    (key.length + 8 + 4 + value.length) (8 + 4 + value.length) (by simp [LE32_length])
    (by omega)
  have s3 := put64_step (([] ++ LE32 (toUint32 (key.length + 8))) ++ key) (0 + 4 + key.length)
    (8 + 4 + value.length) (4 + value.length) (packTag seq valueType)
    (by simp [LE32_length]) (by omega)
  have s4 := put32_step ((([] ++ LE32 (toUint32 (key.length + 8))) ++ key) ++
    LE64 (packTag seq valueType)) (0 + 4 + key.length + 8) (4 + value.length) value.length
    (toUint32 value.length) (by simp [LE32_length, LE64_length]; omega) (by omega)
  have s5 := copy_step (((([] ++ LE32 (toUint32 (key.length + 8))) ++ key) ++
    LE64 (packTag seq valueType)) ++ LE32 (toUint32 value.length)) value
    (0 + 4 + key.length + 8 + 4) value.length 0
    (by simp [LE32_length, LE64_length]; omega) (by omega)
  simp only [List.nil_append] at s1 s2 s3 s4 s5
  simp only [newInternalKey, Option.bind_eq_bind, Option.pure_def, s1, s2, s3, s4, s5,
    Option.some_bind, recordLayout]
  simp

/-- The probe builder never fails, and its buffer is size field, key and the
maximal tag word, whatever the key. -/
theorem LookupKey_eq (key : List Byte) :
    LookupKey key = some { rep := probeLayout key } := by
  have s1 := put32_step [] 0 (4 + key.length + 8) (key.length + 8)
    (toUint32 (key.length + 8)) rfl (by omega)
  have s2 := copy_step ([] ++ LE32 (toUint32 (key.length + 8))) key (0 + 4)
    (key.length + 8) 8 (by simp [LE32_length]) (by omega)
  have s3 := put64_step (([] ++ LE32 (toUint32 (key.length + 8))) ++ key) (0 + 4 + key.length)
    8 0 0xffffffffffffffff (by simp [LE32_length]) (by omega)
  simp only [List.nil_append] at s1 s2 s3
  simp only [LookupKey, Option.bind_eq_bind, Option.pure_def, s1, s2, s3,
    Option.some_bind, probeLayout]
  simp

/-! ## The accessors on a buffer that starts with size field, key and tag -/

theorem Uint32_keyed (key rest : List Byte) (h : key.length + 8 < 2 ^ 32) :
    Uint32 (LE32 (toUint32 (key.length + 8)) ++ rest) = some (key.length + 8) := by
  rw [Uint32_LE32, toUint32, Nat.mod_mod, Nat.mod_eq_of_lt h]

theorem sub32_four (n : Nat) (h : n + 8 < 2 ^ 32) : sub32 (n + 8) 4 = n + 4 := by
  unfold sub32
  omega

theorem slice_mid (a k r : List Byte) (lo hi : Nat) (hlo : lo = a.length)
    (hhi : hi = a.length + k.length) : slice (a ++ (k ++ r)) lo hi = some k := by
  subst hlo hhi
  have e : List.take (a.length + k.length) (a ++ (k ++ r)) = a ++ k := by
    rw [← List.append_assoc, ← List.length_append, List.take_left]
  simp [slice, e]

theorem sliceFrom_mid (a r : List Byte) (lo : Nat) (hlo : lo = a.length) :
    sliceFrom (a ++ r) lo = some r := by
  subst hlo
  simp [sliceFrom]

theorem userKey_keyed (key rest : List Byte) (h : key.length + 8 < 2 ^ 32) :
    InternalKey.userKey { rep := LE32 (toUint32 (key.length + 8)) ++ (key ++ rest) } =
      some key := by
  have e := Uint32_keyed key (key ++ rest) h
  have e2 := sub32_four key.length h
  have hl := LE32_length (toUint32 (key.length + 8))
  unfold InternalKey.userKey
  simp only [e, Option.bind_eq_bind, Option.some_bind, e2]
  exact slice_mid _ _ _ _ _ hl.symm (by rw [hl]; omega)

theorem tagSlice_keyed (key rest : List Byte) :
    sliceFrom (LE32 (toUint32 (key.length + 8)) ++ (key ++ rest)) (key.length + 4) =
      some rest := by
  have hl := LE32_length (toUint32 (key.length + 8))
  rw [← List.append_assoc]
  exact sliceFrom_mid _ _ _ (by rw [List.length_append, hl]; omega)

theorem seq_keyed (key rest : List Byte) (tag : Nat) (h : key.length + 8 < 2 ^ 32) :
    InternalKey.seq { rep := LE32 (toUint32 (key.length + 8)) ++ (key ++ (LE64 tag ++ rest)) } =
      some (toInt64 ((tag % 2 ^ 64) >>> 8)) := by
  have e := Uint32_keyed key (key ++ (LE64 tag ++ rest)) h
  have e2 := sub32_four key.length h
  have e3 := tagSlice_keyed key (LE64 tag ++ rest)
  unfold InternalKey.seq
  simp only [e, e2, e3, Option.bind_eq_bind, Option.some_bind, Uint64_LE64, Option.pure_def]

theorem valueType_keyed (key rest : List Byte) (tag : Nat) (h : key.length + 8 < 2 ^ 32) :
    InternalKey.valueType
        { rep := LE32 (toUint32 (key.length + 8)) ++ (key ++ (LE64 tag ++ rest)) } =
      some (toInt64 (tag % 2 ^ 64 &&& 0xff)) := by
  have e := Uint32_keyed key (key ++ (LE64 tag ++ rest)) h
  have e2 := sub32_four key.length h
  have e3 := tagSlice_keyed key (LE64 tag ++ rest)
  unfold InternalKey.valueType
  simp only [e, e2, e3, Option.bind_eq_bind, Option.some_bind, Uint64_LE64, Option.pure_def]

theorem userValue_keyed (key rest : List Byte) (h : key.length + 8 < 2 ^ 32) :
    InternalKey.userValue { rep := LE32 (toUint32 (key.length + 8)) ++ (key ++ rest) } =
      sliceFrom (LE32 (toUint32 (key.length + 8)) ++ (key ++ rest))
        (add32 (key.length + 8) 8) := by
  have e := Uint32_keyed key (key ++ rest) h
  unfold InternalKey.userValue
  simp only [e, Option.bind_eq_bind, Option.some_bind]

/-! ## The tag word -/

theorem toUint64_lt (z : Int) : toUint64 z < 2 ^ 64 := by
  unfold toUint64
  omega

theorem toUint64_of_range (z : Int) (h0 : 0 ≤ z) (h1 : z < 2 ^ 64) :
    toUint64 z = z.toNat := by
  unfold toUint64
  omega

theorem packTag_eq (seq valueType : Int) (h0 : 0 ≤ valueType)
    (h1 : valueType < 256) :
    packTag seq valueType = 2 ^ 8 * (toUint64 seq % 2 ^ 56) + valueType.toNat := by
  have ht : toUint64 valueType = valueType.toNat := toUint64_of_range _ h0 (by omega)
  have hm : (toUint64 seq <<< 8) % 2 ^ 64 = 2 ^ 8 * (toUint64 seq % 2 ^ 56) := by
    rw [Nat.shiftLeft_eq, Nat.mul_comm, show (2 : Nat) ^ 64 = 2 ^ 8 * 2 ^ 56 by norm_num,
      Nat.mul_mod_mul_left]
  unfold packTag
  rw [hm, ht, Nat.mul_add_lt_is_or (by omega)]

theorem packTag_lt (seq valueType : Int) (h0 : 0 ≤ valueType)
    (h1 : valueType < 256) : packTag seq valueType < 2 ^ 64 := by
  rw [packTag_eq seq valueType h0 h1]
  have := Nat.mod_lt (toUint64 seq) (show 0 < 2 ^ 56 by norm_num)
  omega

theorem packTag_shift (seq valueType : Int) (h0 : 0 ≤ valueType)
    (h1 : valueType < 256) :
    toInt64 ((packTag seq valueType % 2 ^ 64) >>> 8) = seq % 2 ^ 64 % 2 ^ 56 := by
  have hlt := packTag_lt seq valueType h0 h1
  have hm := Nat.mod_lt (toUint64 seq) (show 0 < 2 ^ 56 by norm_num)
  have hu : ((toUint64 seq : Nat) : Int) = seq % 2 ^ 64 := by
    unfold toUint64
    omega
  rw [Nat.mod_eq_of_lt hlt, Nat.shiftRight_eq_div_pow, packTag_eq seq valueType h0 h1,
    Nat.mul_add_div (by norm_num), Nat.div_eq_of_lt (by omega), Nat.add_zero]
  unfold toInt64
  rw [Nat.mod_eq_of_lt (by omega), if_pos (by omega), ← hu]
  omega

theorem packTag_mask (seq valueType : Int) (h0 : 0 ≤ valueType)
    (h1 : valueType < 256) :
    toInt64 (packTag seq valueType % 2 ^ 64 &&& 0xff) = valueType := by
  have hlt := packTag_lt seq valueType h0 h1
  rw [Nat.mod_eq_of_lt hlt, show (0xff : Nat) = 2 ^ 8 - 1 by norm_num,
    Nat.and_pow_two_sub_one_eq_mod, packTag_eq seq valueType h0 h1, Nat.mul_add_mod,
    Nat.mod_eq_of_lt (by omega)]
  unfold toInt64
  rw [Nat.mod_eq_of_lt (by omega), if_pos (by omega)]
  omega

/-! ## Decoding what the producers build -/

theorem record_userKey (seq : Int) (valueType : ValueType) (key value : List Byte)
    (hk : key.length + 8 < 2 ^ 32) :
    InternalKey.userKey { rep := recordLayout seq valueType key value } = some key :=
  userKey_keyed key _ hk

theorem record_seq (seq valueType : Int) (key value : List Byte)
    (hk : key.length + 8 < 2 ^ 32) (h0 : 0 ≤ valueType) (h1 : valueType < 256) :
    InternalKey.seq { rep := recordLayout seq valueType key value } =
      some (seq % 2 ^ 64 % 2 ^ 56) := by
  unfold recordLayout
  rw [seq_keyed key _ _ hk, packTag_shift seq valueType h0 h1]

theorem record_valueType (seq valueType : Int) (key value : List Byte)
    (hk : key.length + 8 < 2 ^ 32) (h0 : 0 ≤ valueType) (h1 : valueType < 256) :
    InternalKey.valueType { rep := recordLayout seq valueType key value } =
      some valueType := by
  unfold recordLayout
  rw [valueType_keyed key _ _ hk, packTag_mask seq valueType h0 h1]

theorem record_userValue_offset (seq : Int) (valueType : ValueType) (key value : List Byte)
    (hk : key.length + 8 < 2 ^ 32) :
    InternalKey.userValue { rep := recordLayout seq valueType key value } =
      sliceFrom (recordLayout seq valueType key value) ((key.length + 16) % 2 ^ 32) := by
  unfold recordLayout
  rw [userValue_keyed key _ hk]
  rfl

theorem record_userValue (seq : Int) (valueType : ValueType) (key value : List Byte)
    (hk : key.length + 16 < 2 ^ 32) :
    InternalKey.userValue { rep := recordLayout seq valueType key value } = some value := by
  rw [record_userValue_offset seq valueType key value (by omega), Nat.mod_eq_of_lt hk]
  unfold recordLayout
  rw [← List.append_assoc, ← List.append_assoc, ← List.append_assoc]
  exact sliceFrom_mid _ _ _ (by simp [LE32_length, LE64_length]; omega)

theorem probe_userKey (key : List Byte) (hk : key.length + 8 < 2 ^ 32) :
    InternalKey.userKey { rep := probeLayout key } = some key :=
  userKey_keyed key _ hk

theorem probe_seq (key : List Byte) (hk : key.length + 8 < 2 ^ 32) :
    InternalKey.seq { rep := probeLayout key } = some (2 ^ 56 - 1) := by
  have h := seq_keyed key [] 0xffffffffffffffff hk
  rw [List.append_nil] at h
  unfold probeLayout
  rw [h]
  decide

theorem probe_valueType (key : List Byte) (hk : key.length + 8 < 2 ^ 32) :
    InternalKey.valueType { rep := probeLayout key } = some 0xff := by
  have h := valueType_keyed key [] 0xffffffffffffffff hk
  rw [List.append_nil] at h
  unfold probeLayout
  rw [h]
  decide

/-- Every well-formed record decodes to a user key and a 56-bit sequence. -/
theorem WellFormed.decode {r : InternalKey} (h : WellFormed r) :
    ∃ k q, r.userKey = some k ∧ r.seq = some q ∧ 0 ≤ q ∧ q < 2 ^ 56 := by
  cases h with
  | entry seq valueType key value r hs0 hs1 ht hk hv hr =>
    rw [newInternalKey_eq] at hr
    cases hr
    have ht0 : (0 : Int) ≤ valueType ∧ valueType < 256 := by
      rcases ht with ht | ht <;> rw [ht] <;> decide
    refine ⟨key, seq, record_userKey _ _ _ _ hk, ?_, hs0, hs1⟩
    rw [record_seq seq valueType key value hk ht0.1 ht0.2]
    congr 1
    omega
  | probe key r hk hr =>
    rw [LookupKey_eq] at hr
    cases hr
    exact ⟨key, 2 ^ 56 - 1, probe_userKey key hk, probe_seq key hk, by norm_num, by norm_num⟩

/-! ## The comparators -/

theorem InternalKeyComparator_eq (a b : InternalKey) (ka kb : List Byte) (qa qb : Int)
    (hka : a.userKey = some ka) (hkb : b.userKey = some kb)
    (hqa : a.seq = some qa) (hqb : b.seq = some qb) :
    InternalKeyComparator a b = some (compareDecoded ka kb qa qb) := by
  unfold InternalKeyComparator compareDecoded
  simp only [hka, hkb, hqa, hqb, Option.bind_eq_bind, Option.some_bind, Option.pure_def]
  by_cases hr : UserKeyComparator ka kb = 0
  · simp only [hr, if_true]
    split_ifs <;> rfl
  · simp only [hr, if_false]

/-- When the user keys differ the sequences are not read: the result is the
user key comparison as soon as both `userKey()` calls succeed. -/
theorem InternalKeyComparator_of_ne (a b : InternalKey) (ka kb : List Byte)
    (hka : a.userKey = some ka) (hkb : b.userKey = some kb)
    (hne : UserKeyComparator ka kb ≠ 0) :
    InternalKeyComparator a b = some (UserKeyComparator ka kb) := by
  unfold InternalKeyComparator
  simp only [hka, hkb, Option.bind_eq_bind, Option.some_bind, Option.pure_def, hne, if_false]

/-! ## `bytes.Compare` is the unsigned lexicographic order -/

theorem bytesCompare_range (a b : List Byte) :
    bytesCompare a b = -1 ∨ bytesCompare a b = 0 ∨ bytesCompare a b = 1 := by
  induction a generalizing b with
  | nil => cases b <;> simp [bytesCompare]
  | cons x xs ih =>
    cases b with
    | nil => simp [bytesCompare]
    | cons y ys =>
      simp only [bytesCompare]
      split_ifs
      · simp
      · simp
      · exact ih ys

theorem bytesCompare_eq_zero_iff (a b : List Byte) : bytesCompare a b = 0 ↔ a = b := by
  induction a generalizing b with
  | nil => cases b <;> simp [bytesCompare]
  | cons x xs ih =>
    cases b with
    | nil => simp [bytesCompare]
    | cons y ys =>
      simp only [bytesCompare]
      split_ifs with h1 h2
      · simp [ne_of_lt h1]
      · simp [ne_of_gt h2]
      · have hxy : x = y := le_antisymm (not_lt.mp h2) (not_lt.mp h1)
        simp [hxy, ih ys]

theorem bytesCompare_eq_neg_one_iff (a b : List Byte) :
    bytesCompare a b = -1 ↔ List.Lex (· < ·) a b := by
  induction a generalizing b with
  | nil =>
    cases b with
    | nil => simp [bytesCompare, List.Lex.not_nil_right]
    | cons y ys => simp [bytesCompare, List.Lex.nil]
  | cons x xs ih =>
    cases b with
    | nil => simp [bytesCompare, List.Lex.not_nil_right]
    | cons y ys =>
      simp only [bytesCompare]
      split_ifs with h1 h2
      · simp [List.Lex.rel h1]
      · constructor
        · intro h
          simp at h
        · intro h
          cases h with
          | cons h => exact absurd h2 (lt_irrefl _)
          | rel h => exact absurd h (lt_asymm h2)
      · have hxy : x = y := le_antisymm (not_lt.mp h2) (not_lt.mp h1)
        subst hxy
        rw [ih ys, List.Lex.cons_iff]

theorem bytesCompare_swap (a b : List Byte) : bytesCompare b a = -bytesCompare a b := by
  induction a generalizing b with
  | nil => cases b <;> simp [bytesCompare]
  | cons x xs ih =>
    cases b with
    | nil => simp [bytesCompare]
    | cons y ys =>
      simp only [bytesCompare]
      split_ifs with h1 h2 h3
      · exact absurd h2 (lt_asymm h1)
      · simp
      · simp
      · exact ih ys

theorem bytesCompare_eq_one_iff (a b : List Byte) :
    bytesCompare a b = 1 ↔ List.Lex (· < ·) b a := by
  rw [← bytesCompare_eq_neg_one_iff, bytesCompare_swap a b]
  omega

theorem bytesCompare_self (a : List Byte) : bytesCompare a a = 0 :=
  (bytesCompare_eq_zero_iff a a).mpr rfl

theorem bytesCompare_trans_lt (a b c : List Byte) (h1 : bytesCompare a b = -1)
    (h2 : bytesCompare b c = -1) : bytesCompare a c = -1 := by
  rw [bytesCompare_eq_neg_one_iff] at h1 h2 ⊢
  exact IsTrans.trans a b c h1 h2

/-! ## The order on decoded records -/

theorem compareDecoded_range (ka kb : List Byte) (qa qb : Int) :
    compareDecoded ka kb qa qb = -1 ∨ compareDecoded ka kb qa qb = 0 ∨
      compareDecoded ka kb qa qb = 1 := by
  unfold compareDecoded UserKeyComparator
  have hr := bytesCompare_range ka kb
  generalize bytesCompare ka kb = c at hr ⊢
  rcases hr with rfl | rfl | rfl <;> (simp; try (split_ifs <;> omega))

theorem compareDecoded_swap (ka kb : List Byte) (qa qb : Int) :
    compareDecoded ka kb qa qb = -compareDecoded kb ka qb qa := by
  unfold compareDecoded UserKeyComparator
  rw [bytesCompare_swap ka kb]
  have hr := bytesCompare_range ka kb
  generalize bytesCompare ka kb = c at hr ⊢
  rcases hr with rfl | rfl | rfl <;> (simp; try (split_ifs <;> omega))

theorem compareDecoded_eq_zero_iff (ka kb : List Byte) (qa qb : Int) :
    compareDecoded ka kb qa qb = 0 ↔ ka = kb ∧ qa = qb := by
  unfold compareDecoded UserKeyComparator
  by_cases h : bytesCompare ka kb = 0
  · have hk := (bytesCompare_eq_zero_iff ka kb).mp h
    subst hk
    rw [if_pos h]
    simp only [eq_self_iff_true, true_and]
    split_ifs <;> constructor <;> intro h' <;> first | omega | exact h'.elim
  · have hk : ka ≠ kb := fun e => h ((bytesCompare_eq_zero_iff ka kb).mpr e)
    rw [if_neg h]
    constructor
    · intro h'
      exact absurd h' h
    · intro h'
      exact absurd h'.1 hk

theorem compareDecoded_neg_iff (ka kb : List Byte) (qa qb : Int) :
    compareDecoded ka kb qa qb < 0 ↔ bytesCompare ka kb = -1 ∨ (ka = kb ∧ qb < qa) := by
  unfold compareDecoded UserKeyComparator
  by_cases h : bytesCompare ka kb = 0
  · have hk := (bytesCompare_eq_zero_iff ka kb).mp h
    subst hk
    rw [if_pos h, h]
    simp only [eq_self_iff_true, true_and]
    split_ifs <;> constructor <;> intro h' <;>
      first
        | omega
        | (rcases h' with h' | h' <;> first | omega | exact h'.elim)
  · have hk : ka ≠ kb := fun e => h ((bytesCompare_eq_zero_iff ka kb).mpr e)
    rw [if_neg h]
    have hr := bytesCompare_range ka kb
    constructor
    · intro h'
      left
      omega
    · intro h'
      rcases h' with h' | h'
      · omega
      · exact absurd h'.1 hk

theorem compareDecoded_nonpos_iff (ka kb : List Byte) (qa qb : Int) :
    compareDecoded ka kb qa qb ≤ 0 ↔ bytesCompare ka kb = -1 ∨ (ka = kb ∧ qb ≤ qa) := by
  have h1 := compareDecoded_neg_iff ka kb qa qb
  have h2 := compareDecoded_eq_zero_iff ka kb qa qb
  constructor
  · intro h
    rcases lt_or_eq_of_le h with h | h
    · rcases h1.mp h with h | h
      · exact Or.inl h
      · exact Or.inr ⟨h.1, le_of_lt h.2⟩
    · have := h2.mp h
      exact Or.inr ⟨this.1, le_of_eq this.2.symm⟩
  · intro h
    rcases h with h | ⟨hk, hq⟩
    · exact le_of_lt (h1.mpr (Or.inl h))
    · rcases lt_or_eq_of_le hq with hq | hq
      · exact le_of_lt (h1.mpr (Or.inr ⟨hk, hq⟩))
      · exact le_of_eq (h2.mpr ⟨hk, hq.symm⟩)

theorem compareDecoded_trans (ka kb kc : List Byte) (qa qb qc : Int)
    (h1 : compareDecoded ka kb qa qb ≤ 0) (h2 : compareDecoded kb kc qb qc ≤ 0) :
    compareDecoded ka kc qa qc ≤ 0 ∧
      ((compareDecoded ka kb qa qb < 0 ∨ compareDecoded kb kc qb qc < 0) →
        compareDecoded ka kc qa qc < 0) := by
  rw [compareDecoded_nonpos_iff] at h1 h2 ⊢
  rw [compareDecoded_neg_iff, compareDecoded_neg_iff, compareDecoded_neg_iff]
  rcases h1 with h1 | ⟨e1, q1⟩ <;> rcases h2 with h2 | ⟨e2, q2⟩
  · have := bytesCompare_trans_lt ka kb kc h1 h2
    exact ⟨Or.inl this, fun _ => Or.inl this⟩
  · subst e2
    exact ⟨Or.inl h1, fun _ => Or.inl h1⟩
  · subst e1
    exact ⟨Or.inl h2, fun _ => Or.inl h2⟩
  · subst e1 e2
    refine ⟨Or.inr ⟨rfl, le_trans q2 q1⟩, fun h => ?_⟩
    have hs := bytesCompare_self ka
    rcases h with h | h <;> rcases h with h | h
    · rw [hs] at h
      omega
    · exact Or.inr ⟨rfl, lt_of_le_of_lt q2 h.2⟩
    · rw [hs] at h
      omega
    · exact Or.inr ⟨rfl, lt_of_lt_of_le h.2 q1⟩

/-! ## Further facts used by the claims -/

theorem tag_range (t : Int) (ht : t = TypeDeletion ∨ t = TypeValue) : 0 ≤ t ∧ t < 256 := by
  rcases ht with ht | ht <;> rw [ht] <;> decide

theorem packTag_of_range (s t : Int) (hs0 : 0 ≤ s) (hs1 : s < 2 ^ 56) (ht0 : 0 ≤ t)
    (ht1 : t < 256) : packTag s t = s.toNat <<< 8 ||| t.toNat := by
  unfold packTag
  rw [toUint64_of_range s hs0 (by omega), toUint64_of_range t ht0 (by omega),
    Nat.mod_eq_of_lt]
  rw [Nat.shiftLeft_eq]
  omega

theorem recordLayout_length (s : Int) (t : ValueType) (k v : List Byte) :
    (recordLayout s t k v).length = 4 + k.length + 8 + 4 + v.length := by
  simp only [recordLayout, List.length_append, LE32_length, LE64_length]
  omega

theorem probeLayout_length (k : List Byte) : (probeLayout k).length = 4 + k.length + 8 := by
  simp only [probeLayout, List.length_append, LE32_length, LE64_length]
  omega

theorem recordLayout_ne_nil (s : Int) (t : ValueType) (k v : List Byte) :
    recordLayout s t k v ≠ [] := by
  intro h
  have hl := recordLayout_length s t k v
  rw [h, List.length_nil] at hl
  omega

theorem recordLayout_take_four (s : Int) (t : ValueType) (k v : List Byte) :
    (recordLayout s t k v).take 4 = LE32 (toUint32 (k.length + 8)) := by
  unfold recordLayout
  exact List.take_left' (LE32_length _)

theorem sliceFrom_zero (b : List Byte) : sliceFrom b 0 = some b := by
  simp [sliceFrom]

/-- The value accessor when the `uint32` offset `Uint32(rep) + 8` wraps to 0:
the whole buffer comes back. -/
theorem record_userValue_wrapped (s : Int) (t : ValueType) (k v : List Byte)
    (hk : k.length + 16 = 2 ^ 32) :
    InternalKey.userValue { rep := recordLayout s t k v } = some (recordLayout s t k v) := by
  rw [record_userValue_offset s t k v (by omega), hk, Nat.mod_self, sliceFrom_zero]

/-- The value accessor on a probe whose key leaves room for the offset
`len(key)+16` in 32 bits: the slice bound is out of range. -/
theorem probe_userValue (k : List Byte) (hk : k.length + 16 < 2 ^ 32) :
    InternalKey.userValue { rep := probeLayout k } = none := by
  unfold probeLayout
  rw [userValue_keyed k _ (by omega)]
  have hl := probeLayout_length k
  unfold probeLayout at hl
  unfold sliceFrom add32
  rw [if_neg]
  rw [hl, Nat.mod_eq_of_lt (by omega)]
  omega

/-- The value accessor on a probe when the `uint32` offset wraps to 0. -/
theorem probe_userValue_wrapped (k : List Byte) (hk : k.length + 16 = 2 ^ 32) :
    InternalKey.userValue { rep := probeLayout k } = some (probeLayout k) := by
  unfold probeLayout
  rw [userValue_keyed k _ (by omega)]
  unfold add32
  rw [show k.length + 8 + 8 = 2 ^ 32 by omega, Nat.mod_self, sliceFrom_zero]

theorem probeLayout_ne_nil (k : List Byte) : probeLayout k ≠ [] := by
  intro h
  have hl := probeLayout_length k
  rw [h, List.length_nil] at hl
  omega

/-- The comparator on two encoded records. -/
theorem compare_records (s1 t1 s2 t2 : Int) (k1 v1 k2 v2 : List Byte)
    (hk1 : k1.length + 8 < 2 ^ 32) (hk2 : k2.length + 8 < 2 ^ 32)
    (ht1 : 0 ≤ t1 ∧ t1 < 256) (ht2 : 0 ≤ t2 ∧ t2 < 256) :
    InternalKeyComparator { rep := recordLayout s1 t1 k1 v1 }
        { rep := recordLayout s2 t2 k2 v2 } =
      some (compareDecoded k1 k2 (s1 % 2 ^ 64 % 2 ^ 56) (s2 % 2 ^ 64 % 2 ^ 56)) :=
  InternalKeyComparator_eq _ _ _ _ _ _ (record_userKey _ _ _ _ hk1) (record_userKey _ _ _ _ hk2)
    (record_seq _ _ _ _ hk1 ht1.1 ht1.2) (record_seq _ _ _ _ hk2 ht2.1 ht2.2)

/-- The comparator on a probe and an encoded record. -/
theorem compare_probe_record (s t : Int) (k1 k v : List Byte)
    (hk1 : k1.length + 8 < 2 ^ 32) (hk : k.length + 8 < 2 ^ 32) (ht : 0 ≤ t ∧ t < 256) :
    InternalKeyComparator { rep := probeLayout k1 } { rep := recordLayout s t k v } =
      some (compareDecoded k1 k (2 ^ 56 - 1) (s % 2 ^ 64 % 2 ^ 56)) :=
  InternalKeyComparator_eq _ _ _ _ _ _ (probe_userKey _ hk1) (record_userKey _ _ _ _ hk)
    (probe_seq _ hk1) (record_seq _ _ _ _ hk ht.1 ht.2)

theorem compareDecoded_same_key (k : List Byte) (qa qb : Int) :
    compareDecoded k k qa qb = if qa > qb then -1 else if qa < qb then 1 else 0 := by
  unfold compareDecoded UserKeyComparator
  rw [if_pos (bytesCompare_self k)]

/-! ## Claims about the record codec and the comparators -/

/-- C1, at its failing input. A user key of `2^32 - 16` bytes meets the size
precondition `len(k)+8 < 2^32`, yet `userValue()` of the record encoded from it
with an empty value returns the whole buffer instead of the empty value: the
`uint32` sum `Uint32(rep) + 8` wraps around to 0, while the encoder wrote the
value at the offset `len(k)+16` computed in `int`. -/
theorem C1_userValue_wraps_at_large_key :
    (List.replicate 4294967280 (0 : Byte)).length + 8 < 2 ^ 32 ∧
      ∃ r, newInternalKey 0 TypeDeletion (List.replicate 4294967280 0) [] = some r ∧
        r.userValue = some r.rep ∧ r.userValue ≠ some [] := by
  have hl : (List.replicate 4294967280 (0 : Byte)).length = 4294967280 :=
    List.length_replicate _ _
  have hk : (List.replicate 4294967280 (0 : Byte)).length + 16 = 2 ^ 32 := by
    rw [hl]
    norm_num
  have hv := record_userValue_wrapped 0 TypeDeletion (List.replicate 4294967280 0) [] hk
  refine ⟨by omega, _, newInternalKey_eq _ _ _ _, hv, ?_⟩
  rw [hv]
  intro h
  exact recordLayout_ne_nil _ _ _ _ (Option.some.inj h)

/-- C2. For a 56-bit sequence `s`, a tag `t` in {TypeDeletion, TypeValue}, a key
with `len(k)+8 < 2^32` and a value with `len(v) < 2^32`, `newInternalKey` returns
a record whose buffer is `LE32(len(k)+8) ++ k ++ LE64((s << 8) | t) ++
LE32(len(v)) ++ v`; its length is `4 + len(k) + 8 + 4 + len(v)`, which is 16 when
key and value are both empty and more than 16 otherwise. -/
theorem C2_record_layout (s t : Int) (k v : List Byte) (hs0 : 0 ≤ s) (hs1 : s < 2 ^ 56)
    (ht : t = TypeDeletion ∨ t = TypeValue) (hk : k.length + 8 < 2 ^ 32)
    (hv : v.length < 2 ^ 32) :
    ∃ r, newInternalKey s t k v = some r ∧
      r.rep = LE32 (k.length + 8) ++ k ++ LE64 (s.toNat <<< 8 ||| t.toNat) ++
        LE32 v.length ++ v ∧
      r.rep.length = 4 + k.length + 8 + 4 + v.length ∧
      (k = [] → v = [] → r.rep.length = 16) ∧
      (k ≠ [] ∨ v ≠ [] → 16 < r.rep.length) := by
  have ht' := tag_range t ht
  have hlen := recordLayout_length s t k v
  refine ⟨_, newInternalKey_eq s t k v, ?_, hlen, ?_, ?_⟩
  · show recordLayout s t k v = _
    unfold recordLayout toUint32
    rw [Nat.mod_eq_of_lt hk, Nat.mod_eq_of_lt hv, packTag_of_range s t hs0 hs1 ht'.1 ht'.2]
    simp only [List.append_assoc]
  · intro h1 h2
    show (recordLayout s t k v).length = 16
    rw [hlen, h1, h2]
    rfl
  · intro h
    show 16 < (recordLayout s t k v).length
    rw [hlen]
    rcases h with h | h
    · have := List.length_pos.mpr h
      omega
    · have := List.length_pos.mpr h
      omega

/-- C2 at the record of sequence 3, tag TypeValue, key "x" and value "hello". -/
theorem C2_record_layout_witness :
    (0 : Int) ≤ 3 ∧ (3 : Int) < 2 ^ 56 ∧ ([120] : List Byte).length + 8 < 2 ^ 32 ∧
      ([104, 101, 108, 108, 111] : List Byte).length < 2 ^ 32 ∧
      ∃ r, newInternalKey 3 TypeValue [120] [104, 101, 108, 108, 111] = some r ∧
        r.rep = LE32 (([120] : List Byte).length + 8) ++ ([120] : List Byte) ++
          LE64 ((3 : Int).toNat <<< 8 ||| TypeValue.toNat) ++
          LE32 ([104, 101, 108, 108, 111] : List Byte).length ++
          ([104, 101, 108, 108, 111] : List Byte) ∧
        r.rep.length = 4 + ([120] : List Byte).length + 8 + 4 +
          ([104, 101, 108, 108, 111] : List Byte).length ∧
        (([120] : List Byte) = [] → ([104, 101, 108, 108, 111] : List Byte) = [] →
          r.rep.length = 16) ∧
        (([120] : List Byte) ≠ [] ∨ ([104, 101, 108, 108, 111] : List Byte) ≠ [] →
          16 < r.rep.length) :=
  ⟨by decide, by decide, by decide, by decide,
    C2_record_layout 3 TypeValue [120] [104, 101, 108, 108, 111] (by decide) (by decide)
      (Or.inr rfl) (by decide) (by decide)⟩

/-- C3. For one user key with `len(k)+8 < 2^32`, sequences `s1 > s2` in
`[0, 2^56)`, any two tags in {TypeDeletion, TypeValue} and any two values, the
record of `s1` compares -1 against the record of `s2`, and the record of `s2`
compares +1 against the record of `s1`. -/
theorem C3_descending_sequence (k v1 v2 : List Byte) (s1 s2 t1 t2 : Int)
    (hk : k.length + 8 < 2 ^ 32) (h0 : 0 ≤ s2) (h12 : s2 < s1) (h1 : s1 < 2 ^ 56)
    (ht1 : t1 = TypeDeletion ∨ t1 = TypeValue) (ht2 : t2 = TypeDeletion ∨ t2 = TypeValue) :
    ∃ a b, newInternalKey s1 t1 k v1 = some a ∧ newInternalKey s2 t2 k v2 = some b ∧
      InternalKeyComparator a b = some (-1) ∧ InternalKeyComparator b a = some 1 := by
  refine ⟨_, _, newInternalKey_eq s1 t1 k v1, newInternalKey_eq s2 t2 k v2, ?_, ?_⟩
  · rw [compare_records s1 t1 s2 t2 k v1 k v2 hk hk (tag_range t1 ht1) (tag_range t2 ht2),
      compareDecoded_same_key]
    congr 1
    split_ifs <;> omega
  · rw [compare_records s2 t2 s1 t1 k v2 k v1 hk hk (tag_range t2 ht2) (tag_range t1 ht1),
      compareDecoded_same_key]
    congr 1
    split_ifs <;> omega

/-- C3 at key "x": the sequence 5 deletion against the sequence 3 value "hello";
the sequence 3 record compared against the sequence 5 record gives +1. -/
theorem C3_descending_sequence_witness :
    ([120] : List Byte).length + 8 < 2 ^ 32 ∧ (0 : Int) ≤ 3 ∧ (3 : Int) < 5 ∧
      (5 : Int) < 2 ^ 56 ∧
      ∃ a b, newInternalKey 5 TypeDeletion [120] [] = some a ∧
        newInternalKey 3 TypeValue [120] [104, 101, 108, 108, 111] = some b ∧
        InternalKeyComparator a b = some (-1) ∧ InternalKeyComparator b a = some 1 :=
  ⟨by decide, by decide, by decide, by decide,
    C3_descending_sequence [120] [] [104, 101, 108, 108, 111] 5 3 TypeDeletion TypeValue
      (by decide) (by decide) (by decide) (by decide) (Or.inl rfl) (Or.inr rfl)⟩

/-- C4. For two well-formed records (from `newInternalKey` under its
preconditions or from `LookupKey` with a key that fits the size field) both
`userKey()` calls succeed, and when the two user keys differ
`InternalKeyComparator` returns `UserKeyComparator` of the two user keys,
whatever the sequences, tags and values: -1 when the first key is
lexicographically smaller, +1 when it is larger (so a probe for `m` compares +1
against every record of a key below `m`). -/
theorem C4_user_key_dominates (a b : InternalKey) (ha : WellFormed a) (hb : WellFormed b) :
    ∃ ka kb, a.userKey = some ka ∧ b.userKey = some kb ∧
      (ka ≠ kb →
        InternalKeyComparator a b = some (UserKeyComparator ka kb) ∧
        (List.Lex (· < ·) ka kb → InternalKeyComparator a b = some (-1)) ∧
        (List.Lex (· < ·) kb ka → InternalKeyComparator a b = some 1)) := by
  obtain ⟨ka, qa, hka, -, -, -⟩ := ha.decode
  obtain ⟨kb, qb, hkb, -, -, -⟩ := hb.decode
  refine ⟨ka, kb, hka, hkb, fun hne => ?_⟩
  have hc : UserKeyComparator ka kb ≠ 0 := fun h => hne ((bytesCompare_eq_zero_iff ka kb).mp h)
  have e := InternalKeyComparator_of_ne a b ka kb hka hkb hc
  refine ⟨e, fun hl => ?_, fun hl => ?_⟩
  · rw [e]
    exact congrArg some ((bytesCompare_eq_neg_one_iff ka kb).mpr hl)
  · rw [e]
    exact congrArg some ((bytesCompare_eq_one_iff ka kb).mpr hl)

/-- C4 at the record of key "a", sequence 5 and the record of key "b",
sequence 1: the first compares -1 against the second. -/
theorem C4_user_key_dominates_witness :
    WellFormed { rep := recordLayout 5 TypeValue [97] [] } ∧
      WellFormed { rep := recordLayout 1 TypeValue [98] [] } ∧
      InternalKeyComparator { rep := recordLayout 5 TypeValue [97] [] }
        { rep := recordLayout 1 TypeValue [98] [] } = some (-1) := by
  have ha : WellFormed { rep := recordLayout 5 TypeValue [97] [] } :=
    WellFormed.entry 5 TypeValue [97] [] _ (by decide) (by decide) (Or.inr rfl) (by decide)
      (by decide) (newInternalKey_eq _ _ _ _)
  have hb : WellFormed { rep := recordLayout 1 TypeValue [98] [] } :=
    WellFormed.entry 1 TypeValue [98] [] _ (by decide) (by decide) (Or.inr rfl) (by decide)
      (by decide) (newInternalKey_eq _ _ _ _)
  obtain ⟨ka, kb, hka, hkb, h⟩ := C4_user_key_dominates _ _ ha hb
  rw [record_userKey 5 TypeValue [97] [] (by decide)] at hka
  rw [record_userKey 1 TypeValue [98] [] (by decide)] at hkb
  cases hka
  cases hkb
  exact ⟨ha, hb, (h (by decide)).2.1 (by decide)⟩

/-- C5, at its failing input. The probe for the empty key compares 0, not -1,
against the TypeValue record of sequence `2^56 - 1` of the same key: both decode
to the sequence `2^56 - 1`, and the comparator reads `seq()` only, which shifts
the type byte away, where its own comment orders by decreasing type after the
sequence and so puts the probe (type `0xFF`) before the record (type 1). -/
theorem C5_probe_ties_at_max_sequence :
    ([] : List Byte).length + 8 < 2 ^ 32 ∧ (0 : Int) ≤ 2 ^ 56 - 1 ∧
      (2 ^ 56 - 1 : Int) < 2 ^ 56 ∧
      ∃ a b, LookupKey [] = some a ∧ newInternalKey (2 ^ 56 - 1) TypeValue [] [] = some b ∧
        InternalKeyComparator a b = some 0 ∧ InternalKeyComparator a b ≠ some (-1) := by
  have e := compare_probe_record (2 ^ 56 - 1) TypeValue [] [] [] (by decide) (by decide)
    (tag_range _ (Or.inr rfl))
  rw [compareDecoded_same_key] at e
  have e0 : InternalKeyComparator { rep := probeLayout [] }
      { rep := recordLayout (2 ^ 56 - 1) TypeValue [] [] } = some 0 := by
    rw [e]
    decide
  refine ⟨by decide, by decide, by decide, _, _, LookupKey_eq [], newInternalKey_eq _ _ _ _,
    e0, ?_⟩
  rw [e0]
  decide

/-- Below the maximal sequence the probe does sort first: for a user key with
`len(k)+8 < 2^32`, a sequence `s` in `[0, 2^56 - 1)`, a tag in {TypeDeletion,
TypeValue} and any value, `LookupKey(k)` compares -1 against
`newInternalKey(s, t, k, v)`. -/
theorem probe_sorts_first_below_max (k v : List Byte) (s t : Int) (hk : k.length + 8 < 2 ^ 32)
    (hs0 : 0 ≤ s) (hs1 : s < 2 ^ 56 - 1) (ht : t = TypeDeletion ∨ t = TypeValue) :
    ∃ a b, LookupKey k = some a ∧ newInternalKey s t k v = some b ∧
      InternalKeyComparator a b = some (-1) := by
  refine ⟨_, _, LookupKey_eq k, newInternalKey_eq s t k v, ?_⟩
  rw [compare_probe_record s t k k v hk hk (tag_range t ht), compareDecoded_same_key]
  congr 1
  split_ifs <;> omega

/-- The probe for "m" against the sequence 7 value record of "m". -/
theorem probe_sorts_first_below_max_example :
    ([109] : List Byte).length + 8 < 2 ^ 32 ∧ (0 : Int) ≤ 7 ∧ (7 : Int) < 2 ^ 56 - 1 ∧
      ∃ a b, LookupKey [109] = some a ∧ newInternalKey 7 TypeValue [109] [1, 2] = some b ∧
        InternalKeyComparator a b = some (-1) :=
  ⟨by decide, by decide, by decide,
    probe_sorts_first_below_max [109] [1, 2] 7 TypeValue (by decide) (by decide) (by decide)
      (Or.inr rfl)⟩

/-- C6, at its failing input. The sequence 5 value record and the sequence 5
deletion record of key "x" compare 0 although their tags differ: the comparator
reads `seq()`, which shifts the tag byte away, where its own comment orders by
decreasing type. -/
theorem C6_equal_with_different_tags :
    ∃ a b, newInternalKey 5 TypeValue [120] [118] = some a ∧
      newInternalKey 5 TypeDeletion [120] [] = some b ∧
      InternalKeyComparator a b = some 0 ∧
      a.valueType = some TypeValue ∧ b.valueType = some TypeDeletion ∧
      TypeValue ≠ TypeDeletion := by
  have ht1 := tag_range TypeValue (Or.inr rfl)
  have ht0 := tag_range TypeDeletion (Or.inl rfl)
  refine ⟨_, _, newInternalKey_eq _ _ _ _, newInternalKey_eq _ _ _ _, ?_,
    record_valueType 5 TypeValue [120] [118] (by decide) ht1.1 ht1.2,
    record_valueType 5 TypeDeletion [120] [] (by decide) ht0.1 ht0.2, by decide⟩
  rw [compare_records 5 TypeValue 5 TypeDeletion [120] [118] [120] [] (by decide) (by decide)
    ht1 ht0, compareDecoded_same_key]
  decide

/-- C7 fails: a key of `2^32 - 8` bytes, for which `len(k)+8 = 2^32` does not
fit the size field, is not rejected. `newInternalKey` returns a record, and the
four bytes of its size field are 0: the size was truncated. -/
theorem C7_counterexample_oversized_key :
    2 ^ 32 ≤ (List.replicate 4294967288 (0 : Byte)).length + 8 ∧
      ∃ r, newInternalKey 0 TypeDeletion (List.replicate 4294967288 0) [] = some r ∧
        r.rep.take 4 = [0, 0, 0, 0] := by
  have hl : (List.replicate 4294967288 (0 : Byte)).length = 4294967288 :=
    List.length_replicate _ _
  refine ⟨by omega, _, newInternalKey_eq _ _ _ _, ?_⟩
  show (recordLayout 0 TypeDeletion (List.replicate 4294967288 0) []).take 4 = [0, 0, 0, 0]
  rw [recordLayout_take_four, hl]
  decide

/-- C7 as amended. `newInternalKey` has no error result: for every sequence,
tag, key and value, of any size, it returns a record, whose two size fields
hold `len(k)+8` and `len(v)` reduced modulo `2^32`. -/
theorem C7_no_error_result (s t : Int) (k v : List Byte) :
    ∃ r, newInternalKey s t k v = some r ∧
      r.rep = LE32 ((k.length + 8) % 2 ^ 32) ++ k ++ LE64 (packTag s t) ++
        LE32 (v.length % 2 ^ 32) ++ v := by
  refine ⟨_, newInternalKey_eq s t k v, ?_⟩
  show recordLayout s t k v = _
  unfold recordLayout toUint32
  simp only [List.append_assoc]

/-- C8. For a user key with `len(k)+8 < 2^32`, `LookupKey` returns a record
whose buffer is `LE32(len(k)+8) ++ k ++` eight bytes `0xFF`, of length
`4 + len(k) + 8`: nothing follows the tag, neither a value size nor value
bytes. -/
theorem C8_lookup_layout (k : List Byte) (hk : k.length + 8 < 2 ^ 32) :
    ∃ r, LookupKey k = some r ∧
      r.rep = LE32 (k.length + 8) ++ k ++ List.replicate 8 0xff ∧
      r.rep.length = 4 + k.length + 8 ∧
      r.rep.drop (4 + k.length + 8) = [] := by
  have hlen := probeLayout_length k
  refine ⟨_, LookupKey_eq k, ?_, hlen, ?_⟩
  · show probeLayout k = _
    unfold probeLayout toUint32
    rw [Nat.mod_eq_of_lt hk, show LE64 0xffffffffffffffff = List.replicate 8 0xff by decide]
    simp only [List.append_assoc]
  · show (probeLayout k).drop (4 + k.length + 8) = []
    rw [← hlen]
    exact List.drop_length _

/-- C8 at the probe for "m": the thirteen bytes 9 0 0 0, "m", eight times 255. -/
theorem C8_lookup_layout_witness :
    ([109] : List Byte).length + 8 < 2 ^ 32 ∧
      ∃ r, LookupKey [109] = some r ∧
        r.rep = LE32 (([109] : List Byte).length + 8) ++ ([109] : List Byte) ++
          List.replicate 8 0xff ∧
        r.rep.length = 4 + ([109] : List Byte).length + 8 ∧
        r.rep.drop (4 + ([109] : List Byte).length + 8) = [] :=
  ⟨by decide, C8_lookup_layout [109] (by decide)⟩

/-- C9. On well-formed records the comparator is defined on every pair and is
transitive: from `cmp(a,b) <= 0` and `cmp(b,c) <= 0` follows `cmp(a,c) <= 0`,
and `cmp(a,c) < 0` when one of the two premises is strict. -/
theorem C9_transitive (a b c : InternalKey) (ha : WellFormed a) (hb : WellFormed b)
    (hc : WellFormed c) :
    ∃ x y z, InternalKeyComparator a b = some x ∧ InternalKeyComparator b c = some y ∧
      InternalKeyComparator a c = some z ∧
      (x ≤ 0 → y ≤ 0 → z ≤ 0) ∧ (x ≤ 0 → y ≤ 0 → x < 0 ∨ y < 0 → z < 0) := by
  obtain ⟨ka, qa, hka, hqa, -, -⟩ := ha.decode
  obtain ⟨kb, qb, hkb, hqb, -, -⟩ := hb.decode
  obtain ⟨kc, qc, hkc, hqc, -, -⟩ := hc.decode
  refine ⟨_, _, _, InternalKeyComparator_eq a b ka kb qa qb hka hkb hqa hqb,
    InternalKeyComparator_eq b c kb kc qb qc hkb hkc hqb hqc,
    InternalKeyComparator_eq a c ka kc qa qc hka hkc hqa hqc, ?_, ?_⟩
  · intro h1 h2
    exact (compareDecoded_trans ka kb kc qa qb qc h1 h2).1
  · intro h1 h2 h3
    exact (compareDecoded_trans ka kb kc qa qb qc h1 h2).2 h3

/-- C9 at the probe for "a", the sequence 5 record of "a" and the sequence 1
record of "b". -/
theorem C9_transitive_witness :
    WellFormed { rep := probeLayout [97] } ∧
      WellFormed { rep := recordLayout 5 TypeValue [97] [] } ∧
      WellFormed { rep := recordLayout 1 TypeDeletion [98] [] } ∧
      ∃ x y z,
        InternalKeyComparator { rep := probeLayout [97] }
          { rep := recordLayout 5 TypeValue [97] [] } = some x ∧
        InternalKeyComparator { rep := recordLayout 5 TypeValue [97] [] }
          { rep := recordLayout 1 TypeDeletion [98] [] } = some y ∧
        InternalKeyComparator { rep := probeLayout [97] }
          { rep := recordLayout 1 TypeDeletion [98] [] } = some z ∧
        (x ≤ 0 → y ≤ 0 → z ≤ 0) ∧ (x ≤ 0 → y ≤ 0 → x < 0 ∨ y < 0 → z < 0) :=
  have ha : WellFormed { rep := probeLayout [97] } :=
    WellFormed.probe [97] _ (by decide) (LookupKey_eq _)
  have hb : WellFormed { rep := recordLayout 5 TypeValue [97] [] } :=
    WellFormed.entry 5 TypeValue [97] [] _ (by decide) (by decide) (Or.inr rfl) (by decide)
      (by decide) (newInternalKey_eq _ _ _ _)
  have hc : WellFormed { rep := recordLayout 1 TypeDeletion [98] [] } :=
    WellFormed.entry 1 TypeDeletion [98] [] _ (by decide) (by decide) (Or.inl rfl) (by decide)
      (by decide) (newInternalKey_eq _ _ _ _)
  ⟨ha, hb, hc, C9_transitive _ _ _ ha hb hc⟩

/-- C10. On well-formed records the comparator is defined, its result is -1, 0
or 1, a record compares 0 against itself, and swapping the arguments negates
the result. -/
theorem C10_three_way (a b : InternalKey) (ha : WellFormed a) (hb : WellFormed b) :
    ∃ x y, InternalKeyComparator a b = some x ∧ InternalKeyComparator b a = some y ∧
      (x = -1 ∨ x = 0 ∨ x = 1) ∧ x = -y ∧ InternalKeyComparator a a = some 0 := by
  obtain ⟨ka, qa, hka, hqa, -, -⟩ := ha.decode
  obtain ⟨kb, qb, hkb, hqb, -, -⟩ := hb.decode
  refine ⟨_, _, InternalKeyComparator_eq a b ka kb qa qb hka hkb hqa hqb,
    InternalKeyComparator_eq b a kb ka qb qa hkb hka hqb hqa,
    compareDecoded_range ka kb qa qb, compareDecoded_swap ka kb qa qb, ?_⟩
  rw [InternalKeyComparator_eq a a ka ka qa qa hka hka hqa hqa]
  exact congrArg some ((compareDecoded_eq_zero_iff ka ka qa qa).mpr ⟨rfl, rfl⟩)

/-- C10 at the sequence 3 value record of "x" and the probe for "x". -/
theorem C10_three_way_witness :
    WellFormed { rep := recordLayout 3 TypeValue [120] [104] } ∧
      WellFormed { rep := probeLayout [120] } ∧
      ∃ x y,
        InternalKeyComparator { rep := recordLayout 3 TypeValue [120] [104] }
          { rep := probeLayout [120] } = some x ∧
        InternalKeyComparator { rep := probeLayout [120] }
          { rep := recordLayout 3 TypeValue [120] [104] } = some y ∧
        (x = -1 ∨ x = 0 ∨ x = 1) ∧ x = -y ∧
        InternalKeyComparator { rep := recordLayout 3 TypeValue [120] [104] }
          { rep := recordLayout 3 TypeValue [120] [104] } = some 0 :=
  have ha : WellFormed { rep := recordLayout 3 TypeValue [120] [104] } :=
    WellFormed.entry 3 TypeValue [120] [104] _ (by decide) (by decide) (Or.inr rfl)
      (by decide) (by decide) (newInternalKey_eq _ _ _ _)
  have hb : WellFormed { rep := probeLayout [120] } :=
    WellFormed.probe [120] _ (by decide) (LookupKey_eq _)
  ⟨ha, hb, C10_three_way _ _ ha hb⟩

/-! ## Claims about the user key order, the accessors and the probe -/

theorem bytesCompare_append (a c : List Byte) (hc : c ≠ []) : bytesCompare a (a ++ c) = -1 := by
  induction a with
  | nil =>
    cases c with
    | nil => exact absurd rfl hc
    | cons y ys => rfl
  | cons x xs ih =>
    simp only [List.cons_append, bytesCompare, lt_irrefl, if_false]
    exact ih

/-- C11. `UserKeyComparator` returns -1, 0 or +1, and it returns them exactly
when the first byte string is lexicographically less than, equal to, or greater
than the second, bytes being compared by their unsigned values; the empty
string is below every non-empty one and a proper prefix is below the longer
string, as "ab" below "abc". -/
theorem C11_user_key_order (a b : List Byte) :
    (UserKeyComparator a b = -1 ∨ UserKeyComparator a b = 0 ∨ UserKeyComparator a b = 1) ∧
      (UserKeyComparator a b = -1 ↔ List.Lex (fun x y : Byte => x.val < y.val) a b) ∧
      (UserKeyComparator a b = 0 ↔ a = b) ∧
      (UserKeyComparator a b = 1 ↔ List.Lex (fun x y : Byte => x.val < y.val) b a) ∧
      (b ≠ [] → UserKeyComparator [] b = -1) ∧
      (b ≠ [] → UserKeyComparator a (a ++ b) = -1) ∧
      UserKeyComparator [97, 98] [97, 98, 99] = -1 :=
  ⟨bytesCompare_range a b, bytesCompare_eq_neg_one_iff a b, bytesCompare_eq_zero_iff a b,
    bytesCompare_eq_one_iff a b, fun hb => bytesCompare_append [] b hb,
    fun hb => bytesCompare_append a b hb, by decide⟩

/-- C12, at its failing input. The sequence 7 value record and the sequence 7
deletion record of key "k" compare 0 in both argument orders; the ordering
comment of the comparator (decreasing type) asks for -1 and +1. -/
theorem C12_no_type_tie_break :
    ∃ a b, newInternalKey 7 TypeValue [107] [118] = some a ∧
      newInternalKey 7 TypeDeletion [107] [] = some b ∧
      InternalKeyComparator a b = some 0 ∧ InternalKeyComparator b a = some 0 := by
  have ht1 := tag_range TypeValue (Or.inr rfl)
  have ht0 := tag_range TypeDeletion (Or.inl rfl)
  refine ⟨_, _, newInternalKey_eq _ _ _ _, newInternalKey_eq _ _ _ _, ?_, ?_⟩
  · rw [compare_records 7 TypeValue 7 TypeDeletion [107] [118] [107] [] (by decide)
      (by decide) ht1 ht0, compareDecoded_same_key]
    decide
  · rw [compare_records 7 TypeDeletion 7 TypeValue [107] [] [107] [118] (by decide)
      (by decide) ht0 ht1, compareDecoded_same_key]
    decide

/-- C13. For every sequence, tag and value and every key with
`len(k)+8 < 2^32`, the four accessors succeed on the record `newInternalKey`
builds (no slice bound or 8-byte read leaves the buffer), and `userKey()`,
`valueType()` and `seq()` succeed on the probe `LookupKey` builds. -/
theorem C13_accessors_in_bounds (s t : Int) (k v : List Byte) (hk : k.length + 8 < 2 ^ 32) :
    (∃ r, newInternalKey s t k v = some r ∧ r.userKey.isSome = true ∧
        r.userValue.isSome = true ∧ r.valueType.isSome = true ∧ r.seq.isSome = true) ∧
      ∃ p, LookupKey k = some p ∧ p.userKey.isSome = true ∧ p.valueType.isSome = true ∧
        p.seq.isSome = true := by
  refine ⟨⟨_, newInternalKey_eq s t k v, ?_, ?_, ?_, ?_⟩, _, LookupKey_eq k, ?_, ?_, ?_⟩
  · rw [record_userKey s t k v hk]
    rfl
  · rw [record_userValue_offset s t k v hk]
    unfold sliceFrom
    rw [if_pos]
    · rfl
    · rw [recordLayout_length]
      have := Nat.mod_le (k.length + 16) (2 ^ 32)
      omega
  · unfold recordLayout
    rw [valueType_keyed k _ _ hk]
    rfl
  · unfold recordLayout
    rw [seq_keyed k _ _ hk]
    rfl
  · rw [probe_userKey k hk]
    rfl
  · rw [probe_valueType k hk]
    rfl
  · rw [probe_seq k hk]
    rfl

/-- C13 at sequence -1, tag 7, key "x" and value "v". -/
theorem C13_accessors_in_bounds_witness :
    ([120] : List Byte).length + 8 < 2 ^ 32 ∧
      (∃ r, newInternalKey (-1) 7 [120] [118] = some r ∧ r.userKey.isSome = true ∧
        r.userValue.isSome = true ∧ r.valueType.isSome = true ∧ r.seq.isSome = true) ∧
      ∃ p, LookupKey [120] = some p ∧ p.userKey.isSome = true ∧ p.valueType.isSome = true ∧
        p.seq.isSome = true :=
  ⟨by decide, C13_accessors_in_bounds (-1) 7 [120] [118] (by decide)⟩

/-- C14, at its failing input. On the probe for a key of `2^32 - 16` bytes, which
meets `len(k)+8 < 2^32`, `userValue()` does not fail: the `uint32` offset
`Uint32(rep) + 8` wraps around to 0 and the whole buffer is returned. -/
theorem C14_userValue_on_probe_wraps :
    (List.replicate 4294967280 (0 : Byte)).length + 8 < 2 ^ 32 ∧
      ∃ p, LookupKey (List.replicate 4294967280 0) = some p ∧
        p.userValue = some p.rep ∧ p.userValue ≠ none := by
  have hl : (List.replicate 4294967280 (0 : Byte)).length = 4294967280 :=
    List.length_replicate _ _
  have hk : (List.replicate 4294967280 (0 : Byte)).length + 16 = 2 ^ 32 := by
    rw [hl]
    norm_num
  have hv := probe_userValue_wrapped (List.replicate 4294967280 0) hk
  refine ⟨by omega, _, LookupKey_eq _, hv, ?_⟩
  rw [hv]
  exact Option.some_ne_none _

/-- C15. For a user key with `len(k)+8 < 2^32`, the probe `LookupKey(k)` decodes
to the user key `k`, the sequence `2^56 - 1` and the value type `0xFF`. -/
theorem C15_probe_fields (k : List Byte) (hk : k.length + 8 < 2 ^ 32) :
    ∃ p, LookupKey k = some p ∧ p.userKey = some k ∧ p.seq = some (2 ^ 56 - 1) ∧
      p.valueType = some 0xff :=
  ⟨_, LookupKey_eq k, probe_userKey k hk, probe_seq k hk, probe_valueType k hk⟩

/-- C15 at the probe for "m". -/
theorem C15_probe_fields_witness :
    ([109] : List Byte).length + 8 < 2 ^ 32 ∧
      ∃ p, LookupKey [109] = some p ∧ p.userKey = some [109] ∧ p.seq = some (2 ^ 56 - 1) ∧
        p.valueType = some 0xff :=
  ⟨by decide, C15_probe_fields [109] (by decide)⟩

/-- C16. For a user key with `len(k)+8 < 2^32`, a sequence in `[0, 2^56)`, a tag
in {TypeDeletion, TypeValue} and any value, the probe `LookupKey(k)` compares
at most 0 against `newInternalKey(s, t, k, v)`, and 0 exactly when
`s = 2^56 - 1`. -/
theorem C16_probe_never_after (k v : List Byte) (s t : Int) (hk : k.length + 8 < 2 ^ 32)
    (hs0 : 0 ≤ s) (hs1 : s < 2 ^ 56) (ht : t = TypeDeletion ∨ t = TypeValue) :
    ∃ a b x, LookupKey k = some a ∧ newInternalKey s t k v = some b ∧
      InternalKeyComparator a b = some x ∧ x ≤ 0 ∧ (x = 0 ↔ s = 2 ^ 56 - 1) := by
  refine ⟨_, _, _, LookupKey_eq k, newInternalKey_eq s t k v,
    compare_probe_record s t k k v hk hk (tag_range t ht), ?_, ?_⟩
  · rw [compareDecoded_same_key]
    split_ifs <;> omega
  · rw [compareDecoded_same_key]
    split_ifs <;> constructor <;> intro h' <;> first | omega | exact h'.elim

/-- C16 at the probe for "m" against the record of the maximal sequence. -/
theorem C16_probe_never_after_witness :
    ([109] : List Byte).length + 8 < 2 ^ 32 ∧ (0 : Int) ≤ 2 ^ 56 - 1 ∧
      (2 ^ 56 - 1 : Int) < 2 ^ 56 ∧
      ∃ a b x, LookupKey [109] = some a ∧
        newInternalKey (2 ^ 56 - 1) TypeDeletion [109] [] = some b ∧
        InternalKeyComparator a b = some x ∧ x ≤ 0 ∧
        (x = 0 ↔ (2 ^ 56 - 1 : Int) = 2 ^ 56 - 1) :=
  ⟨by decide, by decide, by decide,
    C16_probe_never_after [109] [] (2 ^ 56 - 1) TypeDeletion (by decide) (by decide)
      (by decide) (Or.inl rfl)⟩

/-- C17. For every integer sequence `s` (so for every signed 64-bit one, negative
or at least `2^56` included), a tag in {TypeDeletion, TypeValue}, a key with
`len(k)+8 < 2^32` and any value, the record decodes to the sequence
`(s mod 2^64) mod 2^56`, which lies in `[0, 2^56)` and equals `s` exactly when
`0 <= s < 2^56`, and to the value type `t`. -/
theorem C17_sequence_modulo (s t : Int) (k v : List Byte)
    (ht : t = TypeDeletion ∨ t = TypeValue) (hk : k.length + 8 < 2 ^ 32) :
    ∃ r, newInternalKey s t k v = some r ∧ r.seq = some (s % 2 ^ 64 % 2 ^ 56) ∧
      0 ≤ s % 2 ^ 64 % 2 ^ 56 ∧ s % 2 ^ 64 % 2 ^ 56 < 2 ^ 56 ∧
      (s % 2 ^ 64 % 2 ^ 56 = s ↔ 0 ≤ s ∧ s < 2 ^ 56) ∧
      r.valueType = some t := by
  have ht' := tag_range t ht
  refine ⟨_, newInternalKey_eq s t k v, record_seq s t k v hk ht'.1 ht'.2, ?_, ?_, ?_,
    record_valueType s t k v hk ht'.1 ht'.2⟩
  · omega
  · omega
  · omega

/-- C17 at the sequence -1: the record decodes to the sequence `2^56 - 1`. -/
theorem C17_sequence_modulo_witness :
    ([120] : List Byte).length + 8 < 2 ^ 32 ∧
      ∃ r, newInternalKey (-1) TypeValue [120] [] = some r ∧
        r.seq = some (-1 % 2 ^ 64 % 2 ^ 56) ∧
        (0 : Int) ≤ -1 % 2 ^ 64 % 2 ^ 56 ∧ (-1 % 2 ^ 64 % 2 ^ 56 : Int) < 2 ^ 56 ∧
        ((-1 % 2 ^ 64 % 2 ^ 56 : Int) = -1 ↔ (0 : Int) ≤ -1 ∧ (-1 : Int) < 2 ^ 56) ∧
        r.valueType = some TypeValue :=
  ⟨by decide, C17_sequence_modulo (-1) TypeValue [120] [] (Or.inr rfl) (by decide)⟩

/-- C18. On well-formed records the comparator returns 0 exactly when the two
user keys are equal and the two decoded sequences are equal; and its result is
the same on any other pair of well-formed records with the same user keys and
sequences, whatever their tags and values. -/
theorem C18_equality_characterised (a b a' b' : InternalKey) (ha : WellFormed a)
    (hb : WellFormed b) (ha' : WellFormed a') (hb' : WellFormed b') :
    (InternalKeyComparator a b = some 0 ↔ a.userKey = b.userKey ∧ a.seq = b.seq) ∧
      (a'.userKey = a.userKey → a'.seq = a.seq → b'.userKey = b.userKey → b'.seq = b.seq →
        InternalKeyComparator a' b' = InternalKeyComparator a b) := by
  obtain ⟨ka, qa, hka, hqa, -, -⟩ := ha.decode
  obtain ⟨kb, qb, hkb, hqb, -, -⟩ := hb.decode
  obtain ⟨ka', qa', hka', hqa', -, -⟩ := ha'.decode
  obtain ⟨kb', qb', hkb', hqb', -, -⟩ := hb'.decode
  constructor
  · rw [InternalKeyComparator_eq a b ka kb qa qb hka hkb hqa hqb, hka, hkb, hqa, hqb]
    constructor
    · intro h
      have h0 := (compareDecoded_eq_zero_iff ka kb qa qb).mp (Option.some.inj h)
      exact ⟨congrArg some h0.1, congrArg some h0.2⟩
    · intro h
      exact congrArg some ((compareDecoded_eq_zero_iff ka kb qa qb).mpr
        ⟨Option.some.inj h.1, Option.some.inj h.2⟩)
  · intro e1 e2 e3 e4
    rw [hka, hka'] at e1
    rw [hqa, hqa'] at e2
    rw [hkb, hkb'] at e3
    rw [hqb, hqb'] at e4
    cases e1
    cases e2
    cases e3
    cases e4
    rw [InternalKeyComparator_eq a b ka kb qa qb hka hkb hqa hqb,
      InternalKeyComparator_eq a' b' ka kb qa qb hka' hkb' hqa' hqb']

/-- C18 at the sequence 5 value record and the sequence 5 deletion record of
key "x", taken in both orders. -/
theorem C18_equality_characterised_witness :
    WellFormed { rep := recordLayout 5 TypeValue [120] [118] } ∧
      WellFormed { rep := recordLayout 5 TypeDeletion [120] [] } ∧
      (InternalKeyComparator { rep := recordLayout 5 TypeValue [120] [118] }
          { rep := recordLayout 5 TypeDeletion [120] [] } = some 0 ↔
        InternalKey.userKey { rep := recordLayout 5 TypeValue [120] [118] } =
          InternalKey.userKey { rep := recordLayout 5 TypeDeletion [120] [] } ∧
        InternalKey.seq { rep := recordLayout 5 TypeValue [120] [118] } =
          InternalKey.seq { rep := recordLayout 5 TypeDeletion [120] [] }) :=
  have ha : WellFormed { rep := recordLayout 5 TypeValue [120] [118] } :=
    WellFormed.entry 5 TypeValue [120] [118] _ (by decide) (by decide) (Or.inr rfl)
      (by decide) (by decide) (newInternalKey_eq _ _ _ _)
  have hb : WellFormed { rep := recordLayout 5 TypeDeletion [120] [] } :=
    WellFormed.entry 5 TypeDeletion [120] [] _ (by decide) (by decide) (Or.inl rfl)
      (by decide) (by decide) (newInternalKey_eq _ _ _ _)
  ⟨ha, hb, (C18_equality_characterised _ _ _ _ ha hb hb ha).1⟩

end Memtable
